import Mathlib

/-!
Verification of the quantdsl dependency-graph core: a shallow embedding of
`quantdsl/domain/services/dependency_graphs.py` and
`quantdsl/application/base.py`, with theorems about the execution-order
scheduler (Kahn's algorithm), the graph assembler, the persisted call-link
chain and the contract-valuation loop.

Modelling conventions:
- Call identifiers are natural numbers (`CallId`).
- The call-dependencies repository is a total function from call id to its
  registered dependency list; the call-dependents repository is an
  `Option`-valued map, matching the source where a missing dependents entry
  is caught (`except KeyError: continue`) while the dependency list of a
  visited node is looked up directly.
- Python's `set` frontier `S` is a duplicate-free list; `S.pop()` removes
  an element chosen by an arbitrary `pick : Nat → Nat` function (index
  `pick t % S.length` at step `t`), so theorems quantify over every order
  in which `set.pop` could return elements.
- The generator loop runs on explicit fuel; `none` means the fuel ran out
  (a model artifact — the terminating cases the theorems describe always
  return `some`).
- The DSL machinery (`dsl_parse`, expression reduction, `evaluate`) is an
  external collaborator of these two files and is modelled as an opaque
  evaluation function supplied in the valuation context.
-/

abbrev CallId := Nat

abbrev Value := Int

abbrev Edges := CallId → List CallId

/-- The two registries consulted by `generate_execution_order`:
`call_dependencies_repo` and `call_dependents_repo`. -/
structure Graph where
  dependencies : CallId → List CallId
  dependents : CallId → Option (List CallId)

/-- The dependents registered for `n`, or `[]` when no entry exists. -/
def dependentsListOf (g : Graph) (n : CallId) : List CallId :=
  (g.dependents n).getD []

/-- Python `set.add`: insert an element unless it is already present. -/
def insertS (x : CallId) (s : List CallId) : List CallId :=
  if x ∈ s then s else s ++ [x]

/-- `removed_edges[m].add(n)` on the `defaultdict(set)` of removed edges. -/
def addRemoved (n m : CallId) (removed : Edges) : Edges :=
  fun x => if x = m then insertS n (removed x) else removed x

/-- `removed_edges.pop(m)`: forget the bookkeeping for `m` (the defaultdict
returns the empty set for an absent key). -/
def clearRemoved (m : CallId) (removed : Edges) : Edges :=
  fun x => if x = m then [] else removed x

/-- The `for d in call_dependencies_repo[m]: if d not in removed_edges[m]:
break / else:` check — true when every registered dependency of `m` is an
already-removed edge. -/
def depsSatisfied (g : Graph) (m : CallId) (removed : Edges) : Bool :=
  (g.dependencies m).all fun d => decide (d ∈ removed m)

/-- The `for m in dependents:` body of `generate_execution_order`: remove
the edge `n → m`, and when every dependency of `m` has been removed, drop
`m`'s bookkeeping and free `m` into the frontier. -/
def visitDependents (g : Graph) (n : CallId) :
    List CallId → Edges → List CallId → Edges × List CallId
  | [], removed, S => (removed, S)
  | m :: ms, removed, S =>
    if depsSatisfied g m (addRemoved n m removed) then
      visitDependents g n ms (clearRemoved m (addRemoved n m removed)) (insertS m S)
    else
      visitDependents g n ms (addRemoved n m removed) S

/-- Processing of one popped node `n`: look up its dependents
(`except KeyError: continue` when the entry is absent) and visit them. -/
def processNode (g : Graph) (n : CallId) (removed : Edges) (S : List CallId) :
    Edges × List CallId :=
  match g.dependents n with
  | none => (removed, S)
  | some ms => visitDependents g n ms removed S

/-- `S.pop()`: the element at the arbitrary index `pick t % S.length`,
together with the remaining frontier. -/
def stepPick (pick : Nat → Nat) (t : Nat) (S : List CallId) : CallId × List CallId :=
  (S.getD (pick t % S.length) 0, S.eraseIdx (pick t % S.length))

/-- The `while S:` loop of `generate_execution_order`, on explicit fuel:
pop a node, yield it, process its dependents, continue. -/
def kahnRun (g : Graph) (pick : Nat → Nat) :
    Nat → Nat → Edges → List CallId → Option (List CallId)
  | _, _, _, [] => some []
  | 0, _, _, _ :: _ => none
  | fuel + 1, t, removed, x :: xs =>
    match kahnRun g pick fuel (t + 1)
        (processNode g (stepPick pick t (x :: xs)).1 removed (stepPick pick t (x :: xs)).2).1
        (processNode g (stepPick pick t (x :: xs)).1 removed (stepPick pick t (x :: xs)).2).2 with
    | none => none
    | some ys => some ((stepPick pick t (x :: xs)).1 :: ys)

/-- `generate_execution_order(leaf_call_ids, call_dependents_repo,
call_dependencies_repo)`: Kahn's algorithm started from the (set of the)
given leaf call ids, with empty removed-edge bookkeeping. -/
def generate_execution_order (g : Graph) (pick : Nat → Nat) (fuel : Nat)
    (leaf_call_ids : List CallId) : Option (List CallId) :=
  kahnRun g pick fuel 0 (fun _ => []) leaf_call_ids.dedup

/-- Lookup in an association list keyed by call id (a repository read). -/
def lookupId {β : Type} : List (CallId × β) → CallId → Option β
  | [], _ => none
  | p :: rest, k => if p.1 = k then some p.2 else lookupId rest k

/-- The `link_id = contract_specification.id; for call_id in ...:
register_call_link(link_id, call_id); link_id = call_id` loop of
`generate_dependency_graph`: the registered `(link_id, call_id)` pairs. -/
def callLinkChain (linkId : CallId) : List CallId → List (CallId × CallId)
  | [] => []
  | c :: rest => (linkId, c) :: callLinkChain c rest

/-- The tail of `generate_dependency_graph` (lines 52–56): consume the
scheduler's output and register each yielded call id as the next call
link.  There is no check that every registered call was yielded; the
function completes normally on whatever the scheduler produced. -/
def registerCallOrder (g : Graph) (pick : Nat → Nat) (fuel : Nat)
    (specId : CallId) (leaf_call_ids : List CallId) :
    Option (List (CallId × CallId)) :=
  (generate_execution_order g pick fuel leaf_call_ids).map (callLinkChain specId)

/-- One stubbed call consumed by `generate_dependency_graph`. -/
structure StubbedCall where
  call_id : CallId
  dsl_source : Nat
  effective_present_time : Option Nat
  dependencies : List CallId
deriving DecidableEq

/-- `all_dependents[d].append(c)` on the `defaultdict(list)`. -/
def addDependent (d c : CallId) : List (CallId × List CallId) → List (CallId × List CallId)
  | [] => [(d, [c])]
  | p :: rest => if p.1 = d then (p.1, p.2 ++ [c]) :: rest else p :: addDependent d c rest

/-- `for dependency_call_id in dependencies:
all_dependents[dependency_call_id].append(call_id)`. -/
def addDependents (c : CallId) (ds : List CallId)
    (acc : List (CallId × List CallId)) : List (CallId × List CallId) :=
  ds.foldl (fun a d => addDependent d c a) acc

/-- The stub-consumption loop of `generate_dependency_graph` (lines 25–47):
collect the leaf call ids and invert dependencies into `all_dependents`. -/
def assembleGraphAux : List CallId → List (CallId × List CallId) →
    List StubbedCall → List CallId × List (CallId × List CallId)
  | leafs, deps, [] => (leafs, deps)
  | leafs, deps, s :: rest =>
    if s.dependencies = [] then
      assembleGraphAux (leafs ++ [s.call_id]) deps rest
    else
      assembleGraphAux leafs (addDependents s.call_id s.dependencies deps) rest

/-- Leaf ids and inverted dependents produced from the stubbed-call
sequence. -/
def assembleGraph (stubs : List StubbedCall) :
    List CallId × List (CallId × List CallId) :=
  assembleGraphAux [] [] stubs

/-- The dependents registrations performed by `generate_dependency_graph`
(lines 48–51): one `register_call_dependents` per `all_dependents` entry,
then an explicitly empty entry for the contract-specification id. -/
def dependentsRegistrations (specId : CallId) (stubs : List StubbedCall) :
    List (CallId × List CallId) :=
  (assembleGraph stubs).2 ++ [(specId, [])]

abbrev ResultRepo := List (CallId × Value)

/-- `register_call_result(call_id, result_value)`: append-only write to the
event-sourced call-result repository. -/
def register_call_result (c : CallId) (v : Value) (repo : ResultRepo) : ResultRepo :=
  (c, v) :: repo

/-- How many CallResult records the repository holds for a call id. -/
def countResults : ResultRepo → CallId → Nat
  | [], _ => 0
  | p :: rest, c => (if p.1 = c then 1 else 0) + countResults rest c

/-- The inner loop of `get_dependency_values`: fetch each dependency's
CallResult, failing with the repository's KeyError (carrying the missing
stub id) re-raised unchanged when one is absent. -/
def collectDependencyValues (repo : ResultRepo) :
    List CallId → Except CallId (List (CallId × Value))
  | [] => .ok []
  | d :: ds =>
    match lookupId repo d with
    | none => .error d
    | some v =>
      match collectDependencyValues repo ds with
      | .error e => .error e
      | .ok rest => .ok ((d, v) :: rest)

/-- `get_dependency_values(call_id, dependencies_repo, result_repo)`. -/
def get_dependency_values (callId : CallId) (dependencies : CallId → List CallId)
    (repo : ResultRepo) : Except CallId (List (CallId × Value)) :=
  collectDependencyValues repo (dependencies callId)

/-- One call-requirement record (residual DSL source is opaque here). -/
structure CallRequirement where
  dsl_source : Nat
  effective_present_time : Option Nat
deriving DecidableEq

/-- The MarketSimulation fields consumed by the valuation loop. -/
structure MarketSimulation where
  id : Nat
  market_names : List Nat
  observation_date : Nat
  interest_rate : Int
deriving DecidableEq

/-- The `evaluation_kwds` dictionary passed into `dsl_expr.evaluate`. -/
structure EvaluationKwds where
  simulation_id : Nat
  interest_rate : Int
  present_time : Nat
  first_market_name : Option Nat
deriving DecidableEq

/-- The collaborators of `generate_contract_valuation`: the dependency
registry, the call-requirement repository, the market simulation, and the
external DSL parse/reduce/evaluate pipeline (opaque to this core). -/
structure ValuationContext where
  dependencies : CallId → List CallId
  requirements : CallId → CallRequirement
  simulation : MarketSimulation
  evaluate : CallId → List (CallId × Value) → EvaluationKwds → Value

/-- The evaluation kwds built for one call (base.py lines 164–171):
`present_time` is `call.effective_present_time or
market_simulation.observation_date`, and `first_market_name` is
`market_names[0] if market_names else None`. -/
def evaluationKwds (ctx : ValuationContext) (call : CallRequirement) : EvaluationKwds :=
  { simulation_id := ctx.simulation.id
    interest_rate := ctx.simulation.interest_rate
    present_time := call.effective_present_time.getD ctx.simulation.observation_date
    first_market_name := ctx.simulation.market_names.head? }

/-- Outcome of a valuation run: the result repository, a trace of the
evaluation calls made (call id with the kwds passed to `evaluate`), and
the failure, if any, as (call being evaluated, missing dependency id). -/
structure ValuationOutcome where
  results : ResultRepo
  evaluated : List (CallId × EvaluationKwds)
  failure : Option (CallId × CallId)
deriving DecidableEq

/-- The `for call_id in regenerate_execution_order(...)` loop of
`generate_contract_valuation` (base.py lines 143–175): for each call,
gather dependency values (aborting when one is missing — the KeyError
propagates and nothing further is written), build the evaluation kwds,
evaluate, and register the call result. -/
def generate_contract_valuation (ctx : ValuationContext) :
    List CallId → ResultRepo → ValuationOutcome
  | [], repo => ⟨repo, [], none⟩
  | c :: rest, repo =>
    match get_dependency_values c ctx.dependencies repo with
    | .error d => ⟨repo, [], some (c, d)⟩
    | .ok vals =>
      let call := ctx.requirements c
      let kwds := evaluationKwds ctx call
      let v := ctx.evaluate c vals kwds
      let out := generate_contract_valuation ctx rest (register_call_result c v repo)
      ⟨out.results, (c, kwds) :: out.evaluated, out.failure⟩

/-- Modelled from the spec: `regenerate_execution_order`
(`quantdsl.domain.services.fixing_dates`, not under src/) replays the
persisted CallLink chain — "the chain starts at the
contract-specification/root identifier and each successive link is keyed
by the previously yielded call id", "so the order can be replayed without
recomputation".  Starting from the dependency-graph identifier, repeatedly
follow `link_id → call_id` until no further link exists. -/
def regenerate_execution_order (links : List (CallId × CallId)) :
    Nat → CallId → List CallId
  | 0, _ => []
  | fuel + 1, linkId =>
    match lookupId links linkId with
    | none => []
    | some c => c :: regenerate_execution_order links fuel c

/-- A two-call cyclic graph: calls 1 and 2 each depend on the other.
Its leaf set is empty, so the scheduler's initial frontier is empty. -/
def cyclicGraph : Graph where
  dependencies := fun c => if c = 1 then [2] else if c = 2 then [1] else []
  dependents := fun c => if c = 1 then some [2] else if c = 2 then some [1] else none

/-- A three-call diamond-free graph for concrete runs: call 2 depends on
the leaves 0 and 1. -/
def gW : Graph where
  dependencies := fun c => if c = 2 then [0, 1] else []
  dependents := fun c => if c = 0 then some [2] else if c = 1 then some [2] else none

/-- A three-call graph whose dependents registry mentions the dependent 3
twice under call 1: call 3 depends on the leaves 1 and 2. -/
def gDup : Graph where
  dependencies := fun c => if c = 3 then [1, 2] else []
  dependents := fun c => if c = 1 then some [3, 3] else if c = 2 then some [3] else none

/-- A concrete stubbed-call sequence: leaf 1, call 2 depending on 1, and
call 3 depending on 1 and 2 (the root owner id is 9). -/
def stubsW : List StubbedCall :=
  [⟨1, 0, none, []⟩, ⟨2, 0, none, [1]⟩, ⟨3, 0, none, [1, 2]⟩]

/-- A concrete market simulation with no market names. -/
def simW : MarketSimulation :=
  ⟨0, [], 3, 0⟩

/-- A concrete valuation context: call 2 depends on call 1; call 1 has an
effective present time of its own, call 2 has none. -/
def ctxW : ValuationContext where
  dependencies := fun c => if c = 2 then [1] else []
  requirements := fun c => if c = 1 then ⟨0, some 7⟩ else ⟨0, none⟩
  simulation := simW
  evaluate := fun _ _ _ => 0

/-- Facts established by one pass of `visitDependents` over the dependents
list `ms` of a popped node `n`, relative to the list `Y` of already-yielded
ids (`n` included): the frontier and the removed-edge bookkeeping stay
inside `Y`, the frontier only grows and only by processed dependents,
every processed dependent is either freed into the frontier or has its
`n`-edge recorded, and nodes not freed keep their recorded edges — either
unchanged or still missing one of their dependencies. -/
structure VisitOut (g : Graph) (Y : List CallId) (n : CallId) (ms : List CallId)
    (removed : Edges) (S : List CallId) (removed2 : Edges) (S2 : List CallId) : Prop where
  nodup : (Y ++ S2).Nodup
  depsIn : ∀ c ∈ S2, ∀ d ∈ g.dependencies c, d ∈ Y
  remIn : ∀ c x, x ∈ removed2 c → x ∈ Y
  grow : ∀ c ∈ S, c ∈ S2
  slice : ∀ c ∈ S2, c ∈ S ∨ c ∈ ms
  cover : ∀ c ∈ ms, c ∈ S2 ∨ n ∈ removed2 c
  mono : ∀ c, c ∉ S2 → ∀ x, x ∈ removed c → x ∈ removed2 c
  resid : ∀ c, c ∉ S2 → removed2 c = removed c ∨ ∃ d ∈ g.dependencies c, d ∉ removed2 c

theorem mem_insertS {x y : CallId} {s : List CallId} :
    y ∈ insertS x s ↔ y ∈ s ∨ y = x := by
  unfold insertS
  by_cases hx : x ∈ s
  · simp only [hx, if_true]
    constructor
    · exact Or.inl
    · intro h
      cases h with
      | inl h => exact h
      | inr h => exact h ▸ hx
  · simp [hx, List.mem_append]

theorem perm_getD_cons_eraseIdx :
    ∀ (S : List CallId) (i : Nat), i < S.length →
      S.Perm (S.getD i 0 :: S.eraseIdx i)
  | [], i, h => absurd h (by simp)
  | x :: xs, 0, _ => by simp [List.getD]
  | x :: xs, i + 1, h => by
    have hi : i < xs.length := by simpa using h
    have hrec := perm_getD_cons_eraseIdx xs i hi
    have hswap : List.Perm (x :: (xs.getD i 0 :: xs.eraseIdx i))
        (xs.getD i 0 :: (x :: xs.eraseIdx i)) := List.Perm.swap _ _ _
    simpa using (hrec.cons x).trans hswap

theorem stepPick_perm (pick : Nat → Nat) (t : Nat) {S : List CallId} (h : S ≠ []) :
    S.Perm ((stepPick pick t S).1 :: (stepPick pick t S).2) := by
  have hlen : 0 < S.length := List.length_pos.mpr h
  exact perm_getD_cons_eraseIdx S _ (Nat.mod_lt _ hlen)

theorem lookupId_eq_none_of_forall {β : Type} {l : List (CallId × β)} {k : CallId}
    (h : ∀ p ∈ l, p.1 ≠ k) : lookupId l k = none := by
  induction l with
  | nil => rfl
  | cons p rest ih =>
    have hp : p.1 ≠ k := h p (by simp)
    simp only [lookupId, hp, if_false]
    exact ih fun q hq => h q (by simp [hq])

theorem lookupId_append_of_none {β : Type} {l₁ : List (CallId × β)} {k : CallId}
    (l₂ : List (CallId × β)) (h : lookupId l₁ k = none) :
    lookupId (l₁ ++ l₂) k = lookupId l₂ k := by
  induction l₁ with
  | nil => rfl
  | cons p rest ih =>
    by_cases hp : p.1 = k
    · simp [lookupId, hp] at h
    · simp only [lookupId, hp, if_false] at h ⊢
      exact ih h

theorem lookupId_append_of_some {β : Type} {l₁ : List (CallId × β)} {k : CallId}
    {v : β} (l₂ : List (CallId × β)) (h : lookupId l₁ k = some v) :
    lookupId (l₁ ++ l₂) k = some v := by
  induction l₁ with
  | nil => simp [lookupId] at h
  | cons p rest ih =>
    by_cases hp : p.1 = k
    · simp only [lookupId, hp, if_true] at h ⊢
      exact h
    · simp only [lookupId, hp, if_false] at h ⊢
      exact ih h

/-- C3: the code, not the claim, is at fault.  On the two-call cyclic
graph (calls 1 and 2 each depend on the other, so the leaf frontier is
empty) `generate_execution_order` terminates having yielded the empty
order — a strict subset of the two registered calls — and the caller's
link-registration loop (`registerCallOrder`, dependency_graphs.py lines
52–56) completes normally, persisting the truncated (empty) CallLink
chain with no graph-integrity error of any kind, contrary to the claim
and to spec §4.3/§7. -/
theorem generate_dependency_graph_silent_on_cycle :
    generate_execution_order cyclicGraph (fun _ => 0) 10 [] = some [] ∧
    registerCallOrder cyclicGraph (fun _ => 0) 10 0 [] = some [] ∧
    cyclicGraph.dependencies 1 = [2] ∧ cyclicGraph.dependencies 2 = [1] :=
  ⟨rfl, rfl, rfl, rfl⟩

theorem lookupId_addDependent (d c k : CallId) (l : List (CallId × List CallId)) :
    lookupId (addDependent d c l) k =
      if k = d then some ((lookupId l d).getD [] ++ [c]) else lookupId l k := by
  induction l with
  | nil =>
    by_cases h : k = d
    · subst h
      simp [addDependent, lookupId]
    · have h' : d ≠ k := fun hh => h hh.symm
      simp [addDependent, lookupId, h, h']
  | cons p rest ih =>
    simp only [addDependent]
    by_cases hp : p.1 = d
    · by_cases hk : k = d
      · subst hk
        simp [lookupId, hp]
      · have hdk : d ≠ k := fun hh => hk hh.symm
        simp [lookupId, hp, hdk, hk]
    · by_cases hpk : p.1 = k
      · have hk : k ≠ d := fun hh => hp (hpk.trans hh)
        simp [lookupId, hp, hpk, hk]
      · simp [lookupId, hp, hpk, ih]

theorem mem_getD_lookupId_addDependent {x k : CallId} (d c : CallId)
    (l : List (CallId × List CallId)) (h : x ∈ (lookupId l k).getD []) :
    x ∈ (lookupId (addDependent d c l) k).getD [] := by
  rw [lookupId_addDependent]
  by_cases hk : k = d
  · subst hk
    simpa using Or.inl h
  · simpa [hk] using h

theorem lookupId_addDependents_of_not_mem (c : CallId) :
    ∀ (ds : List CallId) (k : CallId) (l : List (CallId × List CallId)), k ∉ ds →
      lookupId (addDependents c ds l) k = lookupId l k
  | [], _, _, _ => rfl
  | d :: ds, k, l, h => by
    have hkd : k ≠ d := fun hh => h (by simp [hh])
    have hk : k ∉ ds := fun hh => h (by simp [hh])
    show lookupId (addDependents c ds (addDependent d c l)) k = lookupId l k
    rw [lookupId_addDependents_of_not_mem c ds k _ hk, lookupId_addDependent]
    simp [hkd]

theorem mem_getD_lookupId_addDependents (c : CallId) :
    ∀ (ds : List CallId) {x k : CallId} (l : List (CallId × List CallId)),
      x ∈ (lookupId l k).getD [] →
      x ∈ (lookupId (addDependents c ds l) k).getD []
  | [], _, _, _, h => h
  | d :: ds, x, k, l, h => by
    show x ∈ (lookupId (addDependents c ds (addDependent d c l)) k).getD []
    exact mem_getD_lookupId_addDependents c ds _ (mem_getD_lookupId_addDependent d c l h)

theorem self_mem_addDependents (c : CallId) :
    ∀ (ds : List CallId) {k : CallId} (l : List (CallId × List CallId)), k ∈ ds →
      c ∈ (lookupId (addDependents c ds l) k).getD []
  | [], k, _, h => absurd h (by simp)
  | d :: ds, k, l, h => by
    show c ∈ (lookupId (addDependents c ds (addDependent d c l)) k).getD []
    by_cases hk : k ∈ ds
    · exact self_mem_addDependents c ds _ hk
    · have hkd : k = d := by
        rcases List.mem_cons.mp h with h1 | h1
        · exact h1
        · exact absurd h1 hk
      subst hkd
      rw [lookupId_addDependents_of_not_mem c ds k _ hk, lookupId_addDependent]
      simp

theorem lookupId_addDependent_ne_none {d c k : CallId} {l : List (CallId × List CallId)}
    (h : lookupId (addDependent d c l) k ≠ none) :
    k = d ∨ lookupId l k ≠ none := by
  rw [lookupId_addDependent] at h
  by_cases hk : k = d
  · exact Or.inl hk
  · right
    simpa [hk] using h

theorem lookupId_addDependents_ne_none (c : CallId) :
    ∀ (ds : List CallId) {k : CallId} {l : List (CallId × List CallId)},
      lookupId (addDependents c ds l) k ≠ none →
      k ∈ ds ∨ lookupId l k ≠ none
  | [], _, _, h => Or.inr h
  | d :: ds, k, l, h => by
    have h' : lookupId (addDependents c ds (addDependent d c l)) k ≠ none := h
    rcases lookupId_addDependents_ne_none c ds h' with h1 | h1
    · exact Or.inl (by simp [h1])
    · rcases lookupId_addDependent_ne_none h1 with h2 | h2
      · exact Or.inl (by simp [h2])
      · exact Or.inr h2

theorem assembleGraphAux_persist :
    ∀ (stubs : List StubbedCall) (leafs : List CallId)
      (deps : List (CallId × List CallId)) {x k : CallId},
      x ∈ (lookupId deps k).getD [] →
      x ∈ (lookupId (assembleGraphAux leafs deps stubs).2 k).getD []
  | [], _, _, _, _, h => h
  | s :: rest, leafs, deps, x, k, h => by
    by_cases hs : s.dependencies = []
    · simp only [assembleGraphAux, hs, if_pos]
      exact assembleGraphAux_persist rest _ _ h
    · simp only [assembleGraphAux, hs, if_neg, ite_false]
      exact assembleGraphAux_persist rest _ _
        (mem_getD_lookupId_addDependents s.call_id s.dependencies deps h)

theorem assembleGraphAux_mem :
    ∀ (stubs : List StubbedCall) (leafs : List CallId)
      (deps : List (CallId × List CallId)) {s : StubbedCall},
      s ∈ stubs → ∀ d ∈ s.dependencies,
      s.call_id ∈ (lookupId (assembleGraphAux leafs deps stubs).2 d).getD []
  | [], _, _, _, hs, _, _ => absurd hs (by simp)
  | s0 :: rest, leafs, deps, s, hs, d, hd => by
    rcases List.mem_cons.mp hs with h1 | h1
    · subst h1
      have hne : s.dependencies ≠ [] := by
        intro hh
        rw [hh] at hd
        exact absurd hd (by simp)
      simp only [assembleGraphAux, hne, ite_false]
      exact assembleGraphAux_persist rest _ _
        (self_mem_addDependents s.call_id s.dependencies deps hd)
    · by_cases hs0 : s0.dependencies = []
      · simp only [assembleGraphAux, hs0, ite_true]
        exact assembleGraphAux_mem rest _ _ h1 d hd
      · simp only [assembleGraphAux, hs0, ite_false]
        exact assembleGraphAux_mem rest _ _ h1 d hd

theorem assembleGraphAux_domain :
    ∀ (stubs : List StubbedCall) (leafs : List CallId)
      (deps : List (CallId × List CallId)) {k : CallId},
      lookupId (assembleGraphAux leafs deps stubs).2 k ≠ none →
      lookupId deps k ≠ none ∨ ∃ s ∈ stubs, k ∈ s.dependencies
  | [], _, _, _, h => Or.inl h
  | s :: rest, leafs, deps, k, h => by
    by_cases hs : s.dependencies = []
    · have h' : lookupId (assembleGraphAux (leafs ++ [s.call_id]) deps rest).2 k ≠ none := by
        simpa [assembleGraphAux, hs] using h
      rcases assembleGraphAux_domain rest _ _ h' with h1 | ⟨s', hs', hk⟩
      · exact Or.inl h1
      · exact Or.inr ⟨s', by simp [hs'], hk⟩
    · have h' : lookupId
          (assembleGraphAux leafs (addDependents s.call_id s.dependencies deps) rest).2 k ≠
            none := by
        simpa [assembleGraphAux, hs] using h
      rcases assembleGraphAux_domain rest _ _ h' with h1 | ⟨s', hs', hk⟩
      · rcases lookupId_addDependents_ne_none s.call_id s.dependencies h1 with h2 | h2
        · exact Or.inr ⟨s, by simp, h2⟩
        · exact Or.inl h2
      · exact Or.inr ⟨s', by simp [hs'], hk⟩

/-- C7: after consuming the full stubbed-call sequence, for every stubbed
call `c` and every `d` in its dependency set, `c` is a member of the
dependents registered for `d`; an id never listed as a dependency gets no
dependents entry, except the contract-specification id, which is
registered with an explicitly empty dependents list.  (The hypothesis that
the root id is itself no call's dependency is the root-has-no-dependents
output invariant of the stub generator, spec §4.1.) -/
theorem generate_dependency_graph_dependents (specId : CallId) (stubs : List StubbedCall)
    (hroot : ∀ s ∈ stubs, specId ∉ s.dependencies) :
    (∀ s ∈ stubs, ∀ d ∈ s.dependencies,
        s.call_id ∈ (lookupId (dependentsRegistrations specId stubs) d).getD []) ∧
    (∀ i, (∀ s ∈ stubs, i ∉ s.dependencies) → i ≠ specId →
        lookupId (dependentsRegistrations specId stubs) i = none) ∧
    lookupId (dependentsRegistrations specId stubs) specId = some [] := by
  refine ⟨?_, ?_, ?_⟩
  · intro s hs d hd
    have hmem := assembleGraphAux_mem stubs [] [] hs d hd
    rcases hv : lookupId (assembleGraphAux [] [] stubs).2 d with _ | v
    · rw [hv] at hmem
      exact absurd hmem (by simp)
    · show s.call_id ∈
        (lookupId ((assembleGraphAux [] [] stubs).2 ++ [(specId, [])]) d).getD []
      rw [lookupId_append_of_some _ hv]
      rw [hv] at hmem
      exact hmem
  · intro i hi hspec
    have hnone : lookupId (assembleGraphAux [] [] stubs).2 i = none := by
      by_contra h
      rcases assembleGraphAux_domain stubs [] [] h with h1 | ⟨s, hs, hk⟩
      · exact h1 rfl
      · exact hi s hs hk
    show lookupId ((assembleGraphAux [] [] stubs).2 ++ [(specId, [])]) i = none
    rw [lookupId_append_of_none _ hnone]
    have hsp : specId ≠ i := fun hh => hspec hh.symm
    simp [lookupId, hsp]
  · have hnone : lookupId (assembleGraphAux [] [] stubs).2 specId = none := by
      by_contra h
      rcases assembleGraphAux_domain stubs [] [] h with h1 | ⟨s, hs, hk⟩
      · exact h1 rfl
      · exact hroot s hs hk
    show lookupId ((assembleGraphAux [] [] stubs).2 ++ [(specId, [])]) specId = some []
    rw [lookupId_append_of_none _ hnone]
    simp [lookupId]

/-- Witness for C7 at a concrete stub sequence. -/
theorem generate_dependency_graph_dependents_witness :
    (∀ s ∈ stubsW, ∀ d ∈ s.dependencies,
        s.call_id ∈ (lookupId (dependentsRegistrations 9 stubsW) d).getD []) ∧
    (∀ i, (∀ s ∈ stubsW, i ∉ s.dependencies) → i ≠ 9 →
        lookupId (dependentsRegistrations 9 stubsW) i = none) ∧
    lookupId (dependentsRegistrations 9 stubsW) 9 = some [] :=
  generate_dependency_graph_dependents 9 stubsW (by decide)

theorem callLinkChain_zip : ∀ (os : List CallId) (linkId : CallId),
    callLinkChain linkId os = (linkId :: os).zip os
  | [], linkId => by simp [callLinkChain]
  | c :: rest, linkId => by
    simp [callLinkChain, List.zip_cons_cons, callLinkChain_zip rest c]

theorem regenerate_execution_order_succ (links : List (CallId × CallId)) (fuel : Nat)
    (linkId : CallId) :
    regenerate_execution_order links (fuel + 1) linkId =
      match lookupId links linkId with
      | none => []
      | some c => c :: regenerate_execution_order links fuel c := rfl

theorem regenerate_callLinkChain :
    ∀ (os : List CallId) (linkId : CallId) (pre : List (CallId × CallId)),
      (linkId :: os).Nodup → (∀ p ∈ pre, p.1 ∉ linkId :: os) →
      regenerate_execution_order (pre ++ callLinkChain linkId os) (os.length + 1) linkId = os
  | [], linkId, pre, _, hpre => by
    have hnone : lookupId (pre ++ callLinkChain linkId []) linkId = none := by
      have h1 : lookupId pre linkId = none :=
        lookupId_eq_none_of_forall fun p hp hh => hpre p hp (by simp [hh])
      rw [lookupId_append_of_none _ h1]
      rfl
    simp [regenerate_execution_order, hnone]
  | c :: rest, linkId, pre, hnd, hpre => by
    have hlook : lookupId (pre ++ callLinkChain linkId (c :: rest)) linkId = some c := by
      have h1 : lookupId pre linkId = none :=
        lookupId_eq_none_of_forall fun p hp hh => hpre p hp (by simp [hh])
      rw [lookupId_append_of_none _ h1]
      simp [callLinkChain, lookupId]
    have hassoc : pre ++ callLinkChain linkId (c :: rest) =
        (pre ++ [(linkId, c)]) ++ callLinkChain c rest := by
      simp [callLinkChain]
    have hnd' : (c :: rest).Nodup := hnd.of_cons
    have hpre' : ∀ p ∈ pre ++ [(linkId, c)], p.1 ∉ c :: rest := by
      intro p hp
      rcases List.mem_append.mp hp with h1 | h1
      · exact fun hh => hpre p h1 (List.mem_cons_of_mem _ hh)
      · have hpeq : p = (linkId, c) := by simpa using h1
        subst hpeq
        simpa using (List.nodup_cons.mp hnd).1
    have hrec := regenerate_callLinkChain rest c (pre ++ [(linkId, c)]) hnd' hpre'
    rw [hassoc] at hlook
    rw [hassoc]
    show regenerate_execution_order ((pre ++ [(linkId, c)]) ++ callLinkChain c rest)
        (rest.length + 1 + 1) linkId = c :: rest
    rw [regenerate_execution_order_succ, hlook]
    exact congrArg (List.cons c) hrec

/-- C8: the persisted CallLink chain pairs the contract-specification id
with the first yielded call id and each further yielded id with its
predecessor (it is the zip of the shifted order with the order), and
replaying the chain from the contract-specification id reproduces the
execution order.  (The yielded order is duplicate-free and does not
contain the specification id — C10 and the deterministic-id scheme.) -/
theorem generate_dependency_graph_link_chain (specId : CallId) (order : List CallId)
    (h : (specId :: order).Nodup) :
    callLinkChain specId order = (specId :: order).zip order ∧
    regenerate_execution_order (callLinkChain specId order) (order.length + 1) specId =
      order := by
  refine ⟨callLinkChain_zip order specId, ?_⟩
  have hrec := regenerate_callLinkChain order specId [] h (by simp)
  simpa using hrec

/-- Witness for C8 at a concrete order. -/
theorem generate_dependency_graph_link_chain_witness :
    callLinkChain 9 [5, 6] = ((9 : CallId) :: [5, 6]).zip [5, 6] ∧
    regenerate_execution_order (callLinkChain 9 [5, 6]) 3 9 = [5, 6] :=
  generate_dependency_graph_link_chain 9 [5, 6] (by decide)

theorem generate_contract_valuation_cons_error (ctx : ValuationContext) (c : CallId)
    (rest : List CallId) (repo : ResultRepo) (d : CallId)
    (h : get_dependency_values c ctx.dependencies repo = .error d) :
    generate_contract_valuation ctx (c :: rest) repo = ⟨repo, [], some (c, d)⟩ := by
  simp [generate_contract_valuation, h]

theorem generate_contract_valuation_cons_ok (ctx : ValuationContext) (c : CallId)
    (rest : List CallId) (repo : ResultRepo) (vals : List (CallId × Value))
    (h : get_dependency_values c ctx.dependencies repo = .ok vals) :
    generate_contract_valuation ctx (c :: rest) repo =
      ⟨(generate_contract_valuation ctx rest
          (register_call_result c
            (ctx.evaluate c vals (evaluationKwds ctx (ctx.requirements c))) repo)).results,
        (c, evaluationKwds ctx (ctx.requirements c)) ::
          (generate_contract_valuation ctx rest
            (register_call_result c
              (ctx.evaluate c vals (evaluationKwds ctx (ctx.requirements c))) repo)).evaluated,
        (generate_contract_valuation ctx rest
          (register_call_result c
            (ctx.evaluate c vals (evaluationKwds ctx (ctx.requirements c))) repo)).failure⟩ := by
  simp [generate_contract_valuation, h]

theorem countResults_register (c c' : CallId) (v : Value) (repo : ResultRepo) :
    countResults (register_call_result c' v repo) c =
      (if c' = c then 1 else 0) + countResults repo c := rfl

theorem valuation_counts (ctx : ValuationContext) :
    ∀ (order : List CallId) (repo : ResultRepo),
      (generate_contract_valuation ctx order repo).failure = none →
      ∀ c, countResults (generate_contract_valuation ctx order repo).results c =
        order.count c + countResults repo c
  | [], repo, _, c => by simp [generate_contract_valuation]
  | c0 :: rest, repo, hdone, c => by
    cases hgd : get_dependency_values c0 ctx.dependencies repo with
    | error d =>
      rw [generate_contract_valuation_cons_error ctx c0 rest repo d hgd] at hdone
      exact absurd hdone (by simp)
    | ok vals =>
      rw [generate_contract_valuation_cons_ok ctx c0 rest repo vals hgd] at hdone ⊢
      have hrec := valuation_counts ctx rest _ (by simpa using hdone) c
      show countResults (generate_contract_valuation ctx rest _).results c = _
      rw [hrec, countResults_register, List.count_cons]
      by_cases hc : c0 = c <;> simp [hc]
      omega

theorem lookupId_isSome_of_countResults_ne_zero :
    ∀ (repo : ResultRepo) (c : CallId), countResults repo c ≠ 0 →
      (lookupId repo c).isSome
  | [], _, h => absurd rfl h
  | p :: rest, c, h => by
    by_cases hp : p.1 = c
    · simp [lookupId, hp]
    · have h' : countResults rest c ≠ 0 := by simpa [countResults, hp] using h
      simpa [lookupId, hp] using lookupId_isSome_of_countResults_ne_zero rest c h'

/-- C4: when a valuation run over an execution order completes without a
missing-dependency failure, every call id in the order has exactly one
registered CallResult, and the root call id's result is defined.  (The
order is duplicate-free and contains the root — C10 and C2 for the order
produced by the scheduler; the run starts on a fresh result store.) -/
theorem generate_contract_valuation_complete (ctx : ValuationContext)
    (order : List CallId) (root : CallId)
    (hnd : order.Nodup) (hroot : root ∈ order)
    (hdone : (generate_contract_valuation ctx order []).failure = none) :
    (∀ c ∈ order,
        countResults (generate_contract_valuation ctx order []).results c = 1) ∧
    (lookupId (generate_contract_valuation ctx order []).results root).isSome := by
  have hcount := valuation_counts ctx order [] hdone
  have hone : ∀ c ∈ order,
      countResults (generate_contract_valuation ctx order []).results c = 1 := by
    intro c hc
    rw [hcount c]
    have h1 : order.count c = 1 := List.count_eq_one_of_mem hnd hc
    simp [h1, countResults]
  refine ⟨hone, ?_⟩
  apply lookupId_isSome_of_countResults_ne_zero
  rw [hone root hroot]
  exact one_ne_zero

/-- Witness for C4 at a concrete valuation run. -/
theorem generate_contract_valuation_complete_witness :
    (∀ c ∈ [1, 2],
        countResults (generate_contract_valuation ctxW [1, 2] []).results c = 1) ∧
    (lookupId (generate_contract_valuation ctxW [1, 2] []).results 2).isSome :=
  generate_contract_valuation_complete ctxW [1, 2] 2 (by decide) (by decide) (by decide)

theorem collectDependencyValues_error :
    ∀ (ds : List CallId) (repo : ResultRepo), (∃ d ∈ ds, lookupId repo d = none) →
      ∃ e ∈ ds, lookupId repo e = none ∧ collectDependencyValues repo ds = .error e
  | [], _, h => absurd h (by simp)
  | d :: ds, repo, h => by
    cases hd : lookupId repo d with
    | none => exact ⟨d, by simp, hd, by simp [collectDependencyValues, hd]⟩
    | some v =>
      have h' : ∃ e ∈ ds, lookupId repo e = none := by
        rcases h with ⟨e, he, hnone⟩
        rcases List.mem_cons.mp he with h1 | h1
        · subst h1
          rw [hd] at hnone
          exact absurd hnone (by simp)
        · exact ⟨e, h1, hnone⟩
      rcases collectDependencyValues_error ds repo h' with ⟨e, he, hnone, herr⟩
      exact ⟨e, by simp [he], hnone, by simp [collectDependencyValues, hd, herr]⟩

/-- C5: when a call is about to be evaluated and some id in its dependency
set has no CallResult in the result repository, `get_dependency_values`
fails with the repository's not-found error carrying a missing dependency
id, and the valuation loop aborts on that call with the result repository
unchanged — no CallResult is registered for the call, and the call is not
evaluated. -/
theorem generate_contract_valuation_missing_dependency (ctx : ValuationContext)
    (c : CallId) (rest : List CallId) (repo : ResultRepo) (d : CallId)
    (hd : d ∈ ctx.dependencies c) (hmiss : lookupId repo d = none) :
    ∃ e ∈ ctx.dependencies c, lookupId repo e = none ∧
      get_dependency_values c ctx.dependencies repo = .error e ∧
      generate_contract_valuation ctx (c :: rest) repo = ⟨repo, [], some (c, e)⟩ := by
  rcases collectDependencyValues_error (ctx.dependencies c) repo ⟨d, hd, hmiss⟩
    with ⟨e, he, hnone, herr⟩
  exact ⟨e, he, hnone, herr,
    generate_contract_valuation_cons_error ctx c rest repo e herr⟩

/-- Witness for C5: call 2's dependency 1 has no result in the empty
repository. -/
theorem generate_contract_valuation_missing_dependency_witness :
    ∃ e ∈ ctxW.dependencies 2, lookupId ([] : ResultRepo) e = none ∧
      get_dependency_values 2 ctxW.dependencies [] = .error e ∧
      generate_contract_valuation ctxW [2] [] = ⟨[], [], some (2, e)⟩ :=
  generate_contract_valuation_missing_dependency ctxW 2 [] [] 1 (by decide) (by decide)

/-- C6: every evaluation performed by the valuation loop receives as
`present_time` the call's own `effective_present_time` when that is set,
and the market simulation's `observation_date` otherwise. -/
theorem generate_contract_valuation_present_time (ctx : ValuationContext) :
    ∀ (order : List CallId) (repo : ResultRepo) (c : CallId) (kwds : EvaluationKwds),
      (c, kwds) ∈ (generate_contract_valuation ctx order repo).evaluated →
      (∀ t, (ctx.requirements c).effective_present_time = some t →
          kwds.present_time = t) ∧
      ((ctx.requirements c).effective_present_time = none →
        kwds.present_time = ctx.simulation.observation_date)
  | [], repo, c, kwds, h => absurd h (by simp [generate_contract_valuation])
  | c0 :: rest, repo, c, kwds, h => by
    cases hgd : get_dependency_values c0 ctx.dependencies repo with
    | error d =>
      rw [generate_contract_valuation_cons_error ctx c0 rest repo d hgd] at h
      exact absurd h (by simp)
    | ok vals =>
      rw [generate_contract_valuation_cons_ok ctx c0 rest repo vals hgd] at h
      rcases List.mem_cons.mp h with h1 | h1
      · have hc : c = c0 := congrArg Prod.fst h1
        have hk : kwds = evaluationKwds ctx (ctx.requirements c0) := congrArg Prod.snd h1
        subst hc
        subst hk
        constructor
        · intro t ht
          simp [evaluationKwds, ht]
        · intro ht
          simp [evaluationKwds, ht]
      · exact generate_contract_valuation_present_time ctx rest _ c kwds h1

/-- Witness for C6: call 1 has `effective_present_time` 7 in `ctxW`. -/
theorem generate_contract_valuation_present_time_witness :
    (∀ t, (ctxW.requirements 1).effective_present_time = some t →
        (evaluationKwds ctxW (ctxW.requirements 1)).present_time = t) ∧
    ((ctxW.requirements 1).effective_present_time = none →
      (evaluationKwds ctxW (ctxW.requirements 1)).present_time =
        ctxW.simulation.observation_date) :=
  generate_contract_valuation_present_time ctxW [1] [] 1
    (evaluationKwds ctxW (ctxW.requirements 1)) (by decide)

theorem valuation_evaluated_market_names (ctx : ValuationContext)
    (h : ctx.simulation.market_names = []) :
    ∀ (order : List CallId) (repo : ResultRepo),
      ∀ p ∈ (generate_contract_valuation ctx order repo).evaluated,
        p.2.first_market_name = none
  | [], repo, p, hp => absurd hp (by simp [generate_contract_valuation])
  | c0 :: rest, repo, p, hp => by
    cases hgd : get_dependency_values c0 ctx.dependencies repo with
    | error d =>
      rw [generate_contract_valuation_cons_error ctx c0 rest repo d hgd] at hp
      exact absurd hp (by simp)
    | ok vals =>
      rw [generate_contract_valuation_cons_ok ctx c0 rest repo vals hgd] at hp
      rcases List.mem_cons.mp hp with h1 | h1
      · rw [h1]
        simp [evaluationKwds, h]
      · exact valuation_evaluated_market_names ctx h rest _ p h1

theorem valuation_evaluated_ids (ctx : ValuationContext) :
    ∀ (order : List CallId) (repo : ResultRepo),
      (generate_contract_valuation ctx order repo).failure = none →
      (generate_contract_valuation ctx order repo).evaluated.map Prod.fst = order
  | [], repo, _ => by simp [generate_contract_valuation]
  | c0 :: rest, repo, hdone => by
    cases hgd : get_dependency_values c0 ctx.dependencies repo with
    | error d =>
      rw [generate_contract_valuation_cons_error ctx c0 rest repo d hgd] at hdone
      exact absurd hdone (by simp)
    | ok vals =>
      rw [generate_contract_valuation_cons_ok ctx c0 rest repo vals hgd] at hdone ⊢
      have hrec := valuation_evaluated_ids ctx rest _ (by simpa using hdone)
      simpa using hrec

/-- C9: with an empty market-name list, the valuation loop does not fail
before evaluation: a failure-free run still evaluates every call of the
order, and each evaluation receives `none` as the default (first) market
name. -/
theorem generate_contract_valuation_empty_market_names (ctx : ValuationContext)
    (order : List CallId) (repo : ResultRepo)
    (h : ctx.simulation.market_names = []) :
    (∀ p ∈ (generate_contract_valuation ctx order repo).evaluated,
        p.2.first_market_name = none) ∧
    ((generate_contract_valuation ctx order repo).failure = none →
      (generate_contract_valuation ctx order repo).evaluated.map Prod.fst = order) :=
  ⟨valuation_evaluated_market_names ctx h order repo,
    fun hdone => valuation_evaluated_ids ctx order repo hdone⟩

/-- Witness for C9: `ctxW`'s market simulation has no market names. -/
theorem generate_contract_valuation_empty_market_names_witness :
    (∀ p ∈ (generate_contract_valuation ctxW [1, 2] []).evaluated,
        p.2.first_market_name = none) ∧
    ((generate_contract_valuation ctxW [1, 2] []).failure = none →
      (generate_contract_valuation ctxW [1, 2] []).evaluated.map Prod.fst = [1, 2]) :=
  generate_contract_valuation_empty_market_names ctxW [1, 2] [] (by decide)

theorem depsSatisfied_iff {g : Graph} {m : CallId} {removed : Edges} :
    depsSatisfied g m removed = true ↔ ∀ d ∈ g.dependencies m, d ∈ removed m := by
  simp [depsSatisfied, List.all_eq_true]

theorem mem_addRemoved {n m c x : CallId} {removed : Edges}
    (h : x ∈ addRemoved n m removed c) : x ∈ removed c ∨ x = n := by
  unfold addRemoved at h
  by_cases hc : c = m
  · rw [if_pos hc] at h
    exact mem_insertS.mp h
  · rw [if_neg hc] at h
    exact Or.inl h

theorem mem_clearRemoved {m c x : CallId} {removed : Edges}
    (h : x ∈ clearRemoved m removed c) : x ∈ removed c := by
  unfold clearRemoved at h
  by_cases hc : c = m
  · rw [if_pos hc] at h
    exact absurd h (by simp)
  · rwa [if_neg hc] at h

theorem kahnRun_nil (g : Graph) (pick : Nat → Nat) (fuel t : Nat) (removed : Edges) :
    kahnRun g pick fuel t removed [] = some [] := by
  cases fuel <;> rfl

theorem kahnRun_cons (g : Graph) (pick : Nat → Nat) (fuel t : Nat) (removed : Edges)
    (x : CallId) (xs : List CallId) :
    kahnRun g pick (fuel + 1) t removed (x :: xs) =
      match kahnRun g pick fuel (t + 1)
          (processNode g (stepPick pick t (x :: xs)).1 removed
            (stepPick pick t (x :: xs)).2).1
          (processNode g (stepPick pick t (x :: xs)).1 removed
            (stepPick pick t (x :: xs)).2).2 with
      | none => none
      | some ys => some ((stepPick pick t (x :: xs)).1 :: ys) := rfl

theorem visitDependents_topo (g : Graph) (n : CallId) :
    ∀ (ms : List CallId) (removed : Edges) (S Y : List CallId),
      n ∈ Y →
      (∀ c ∈ S, ∀ d ∈ g.dependencies c, d ∈ Y) →
      (∀ c x, x ∈ removed c → x ∈ Y) →
      (∀ c ∈ (visitDependents g n ms removed S).2, ∀ d ∈ g.dependencies c, d ∈ Y) ∧
      (∀ c x, x ∈ (visitDependents g n ms removed S).1 c → x ∈ Y)
  | [], _, _, _, _, hC, hF => ⟨hC, hF⟩
  | m :: ms, removed, S, Y, hn, hC, hF => by
    have hF1 : ∀ c x, x ∈ addRemoved n m removed c → x ∈ Y := by
      intro c x hx
      rcases mem_addRemoved hx with h1 | h1
      · exact hF c x h1
      · exact h1 ▸ hn
    by_cases hsat : depsSatisfied g m (addRemoved n m removed) = true
    · have hC1 : ∀ c ∈ insertS m S, ∀ d ∈ g.dependencies c, d ∈ Y := by
        intro c hc d hd
        rcases mem_insertS.mp hc with h1 | h1
        · exact hC c h1 d hd
        · subst h1
          exact hF1 c d (depsSatisfied_iff.mp hsat d hd)
      have hF2 : ∀ c x, x ∈ clearRemoved m (addRemoved n m removed) c → x ∈ Y :=
        fun c x hx => hF1 c x (mem_clearRemoved hx)
      have hrec := visitDependents_topo g n ms (clearRemoved m (addRemoved n m removed))
        (insertS m S) Y hn hC1 hF2
      simpa [visitDependents, hsat] using hrec
    · have hsat' := eq_false_of_ne_true hsat
      have hrec := visitDependents_topo g n ms (addRemoved n m removed) S Y hn hC hF1
      simpa [visitDependents, hsat'] using hrec

theorem processNode_topo (g : Graph) (n : CallId) (removed : Edges) (S Y : List CallId)
    (hn : n ∈ Y)
    (hC : ∀ c ∈ S, ∀ d ∈ g.dependencies c, d ∈ Y)
    (hF : ∀ c x, x ∈ removed c → x ∈ Y) :
    (∀ c ∈ (processNode g n removed S).2, ∀ d ∈ g.dependencies c, d ∈ Y) ∧
    (∀ c x, x ∈ (processNode g n removed S).1 c → x ∈ Y) := by
  unfold processNode
  cases g.dependents n with
  | none => exact ⟨hC, hF⟩
  | some ms => exact visitDependents_topo g n ms removed S Y hn hC hF

theorem kahnRun_topo (g : Graph) (pick : Nat → Nat) :
    ∀ (fuel : Nat), ∀ (t : Nat) (removed : Edges) (S Y ys : List CallId),
      (∀ c ∈ S, ∀ d ∈ g.dependencies c, d ∈ Y) →
      (∀ c x, x ∈ removed c → x ∈ Y) →
      kahnRun g pick fuel t removed S = some ys →
      ∀ (j : Nat) (hj : j < ys.length), ∀ d ∈ g.dependencies (ys.get ⟨j, hj⟩),
        d ∈ Y ∨ d ∈ ys.take j := by
  intro fuel
  induction fuel with
  | zero =>
    intro t removed S Y ys hC hF hrun
    cases S with
    | nil =>
      rw [kahnRun_nil] at hrun
      injection hrun with h
      subst h
      intro j hj
      exact absurd hj (by simp)
    | cons x xs =>
      exact absurd hrun (by simp [kahnRun])
  | succ fuel ih =>
    intro t removed S Y ys hC hF hrun
    cases S with
    | nil =>
      rw [kahnRun_nil] at hrun
      injection hrun with h
      subst h
      intro j hj
      exact absurd hj (by simp)
    | cons x xs =>
      rw [kahnRun_cons] at hrun
      cases hrec : kahnRun g pick fuel (t + 1)
          (processNode g (stepPick pick t (x :: xs)).1 removed
            (stepPick pick t (x :: xs)).2).1
          (processNode g (stepPick pick t (x :: xs)).1 removed
            (stepPick pick t (x :: xs)).2).2 with
      | none =>
        rw [hrec] at hrun
        exact absurd hrun (by simp)
      | some ys' =>
        rw [hrec] at hrun
        have hys : ys = (stepPick pick t (x :: xs)).1 :: ys' := by
          injection hrun with h
          exact h.symm
        subst hys
        have hperm := stepPick_perm pick t (S := x :: xs) (by simp)
        have hnS : (stepPick pick t (x :: xs)).1 ∈ x :: xs :=
          hperm.mem_iff.mpr (List.mem_cons_self _ _)
        have hdepsn : ∀ d ∈ g.dependencies (stepPick pick t (x :: xs)).1, d ∈ Y :=
          hC _ hnS
        have hC1 : ∀ c ∈ (stepPick pick t (x :: xs)).2, ∀ d ∈ g.dependencies c,
            d ∈ Y ++ [(stepPick pick t (x :: xs)).1] := by
          intro c hc d hd
          exact List.mem_append_left _
            (hC c (hperm.mem_iff.mpr (List.mem_cons_of_mem _ hc)) d hd)
        have hF1 : ∀ c x', x' ∈ removed c → x' ∈ Y ++ [(stepPick pick t (x :: xs)).1] :=
          fun c x' hx => List.mem_append_left _ (hF c x' hx)
        have hpost := processNode_topo g (stepPick pick t (x :: xs)).1 removed
          (stepPick pick t (x :: xs)).2 (Y ++ [(stepPick pick t (x :: xs)).1])
          (by simp) hC1 hF1
        have hih := ih (t + 1) _ _ (Y ++ [(stepPick pick t (x :: xs)).1]) ys'
          hpost.1 hpost.2 hrec
        intro j hj
        cases j with
        | zero =>
          intro d hd
          exact Or.inl (hdepsn d hd)
        | succ j =>
          intro d hd
          have hj' : j < ys'.length := by simpa using hj
          have hd' : d ∈ g.dependencies (ys'.get ⟨j, hj'⟩) := hd
          rcases hih j hj' d hd' with h1 | h1
          · rcases List.mem_append.mp h1 with h2 | h2
            · exact Or.inl h2
            · right
              have hdn : d = (stepPick pick t (x :: xs)).1 := by simpa using h2
              simp [List.take_succ_cons, hdn]
          · right
            simp only [List.take_succ_cons]
            exact List.mem_cons_of_mem _ h1

/-- C1: for every edge `d → c` in the dependencies registry, the sequence
yielded by `generate_execution_order` — started from the graph's leaf call
ids (ids registered with an empty dependency set), under any frontier pop
order and any fuel — places `d` strictly before `c`: every dependency of
the id at position `j` occurs among the first `j` yielded ids. -/
theorem generate_execution_order_topological (g : Graph) (pick : Nat → Nat)
    (fuel : Nat) (leaf_call_ids ys : List CallId)
    (hleaf : ∀ l ∈ leaf_call_ids, g.dependencies l = [])
    (hrun : generate_execution_order g pick fuel leaf_call_ids = some ys) :
    ∀ (j : Nat) (hj : j < ys.length), ∀ d ∈ g.dependencies (ys.get ⟨j, hj⟩),
      d ∈ ys.take j := by
  have hC : ∀ c ∈ leaf_call_ids.dedup, ∀ d ∈ g.dependencies c, d ∈ ([] : List CallId) := by
    intro c hc d hd
    rw [hleaf c (List.mem_dedup.mp hc)] at hd
    exact absurd hd (by simp)
  have hF : ∀ (c x : CallId), x ∈ (fun _ => ([] : List CallId)) c →
      x ∈ ([] : List CallId) :=
    fun _ _ hx => hx
  have hmain := kahnRun_topo g pick fuel 0 _ _ [] ys hC hF hrun
  intro j hj d hd
  rcases hmain j hj d hd with h1 | h1
  · exact absurd h1 (by simp)
  · exact h1

/-- Witness for C1 at a concrete graph and run: call 2 is yielded at
position 2, and its two dependencies 0 and 1 occur among the first two
yielded ids. -/
theorem generate_execution_order_topological_witness :
    (0 : CallId) ∈ ([0, 1, 2] : List CallId).take 2 ∧
    (1 : CallId) ∈ ([0, 1, 2] : List CallId).take 2 :=
  ⟨generate_execution_order_topological gW (fun _ => 0) 5 [0, 1] [0, 1, 2]
      (by decide) (by decide) 2 (by decide) 0 (by decide),
    generate_execution_order_topological gW (fun _ => 0) 5 [0, 1] [0, 1, 2]
      (by decide) (by decide) 2 (by decide) 1 (by decide)⟩

theorem visitDependents_spec (g : Graph) (Y : List CallId) (n : CallId) :
    ∀ (ms : List CallId) (removed : Edges) (S : List CallId),
      n ∈ Y →
      (∀ c ∈ Y, n ∉ g.dependencies c) →
      (∀ m ∈ ms, n ∈ g.dependencies m) →
      (Y ++ S).Nodup →
      (∀ c ∈ S, ∀ d ∈ g.dependencies c, d ∈ Y) →
      (∀ c x, x ∈ removed c → x ∈ Y) →
      VisitOut g Y n ms removed S (visitDependents g n ms removed S).1
        (visitDependents g n ms removed S).2
  | [], removed, S, _, _, _, hA, hC, hF =>
    { nodup := hA
      depsIn := hC
      remIn := hF
      grow := fun _ hc => hc
      slice := fun _ hc => Or.inl hc
      cover := fun _ hc => absurd hc (by simp)
      mono := fun _ _ _ hx => hx
      resid := fun _ _ => Or.inl rfl }
  | m :: ms, removed, S, hn, hno, hms, hA, hC, hF => by
    have hm : n ∈ g.dependencies m := hms m (by simp)
    have hF1 : ∀ c x, x ∈ addRemoved n m removed c → x ∈ Y := by
      intro c x hx
      rcases mem_addRemoved hx with h1 | h1
      · exact hF c x h1
      · exact h1 ▸ hn
    by_cases hsat : depsSatisfied g m (addRemoved n m removed) = true
    · have hmY : m ∉ Y := fun hmy => hno m hmy hm
      have hA1 : (Y ++ insertS m S).Nodup := by
        by_cases hmS : m ∈ S
        · simpa [insertS, hmS] using hA
        · have hgoal : ((Y ++ S) ++ [m]).Nodup := by
            refine List.nodup_append.mpr ⟨hA, by simp, ?_⟩
            intro a haYS ham
            have ham' : a = m := by simpa using ham
            subst ham'
            rcases List.mem_append.mp haYS with h | h
            · exact hmY h
            · exact hmS h
          simpa [insertS, hmS, List.append_assoc] using hgoal
      have hC1 : ∀ c ∈ insertS m S, ∀ d ∈ g.dependencies c, d ∈ Y := by
        intro c hc d hd
        rcases mem_insertS.mp hc with h1 | h1
        · exact hC c h1 d hd
        · subst h1
          exact hF1 c d (depsSatisfied_iff.mp hsat d hd)
      have hF2 : ∀ c x, x ∈ clearRemoved m (addRemoved n m removed) c → x ∈ Y :=
        fun c x hx => hF1 c x (mem_clearRemoved hx)
      have vo := visitDependents_spec g Y n ms (clearRemoved m (addRemoved n m removed))
        (insertS m S) hn hno (fun m' hm' => hms m' (by simp [hm'])) hA1 hC1 hF2
      have hres1 : (visitDependents g n (m :: ms) removed S).1 =
          (visitDependents g n ms (clearRemoved m (addRemoved n m removed))
            (insertS m S)).1 := by
        simp [visitDependents, hsat]
      have hres2 : (visitDependents g n (m :: ms) removed S).2 =
          (visitDependents g n ms (clearRemoved m (addRemoved n m removed))
            (insertS m S)).2 := by
        simp [visitDependents, hsat]
      rw [hres1, hres2]
      refine { nodup := vo.nodup, depsIn := vo.depsIn, remIn := vo.remIn,
               grow := ?_, slice := ?_, cover := ?_, mono := ?_, resid := ?_ }
      · intro c hc
        exact vo.grow c (mem_insertS.mpr (Or.inl hc))
      · intro c hc
        rcases vo.slice c hc with h1 | h1
        · rcases mem_insertS.mp h1 with h2 | h2
          · exact Or.inl h2
          · exact Or.inr (by simp [h2])
        · exact Or.inr (by simp [h1])
      · intro c hc
        rcases List.mem_cons.mp hc with h1 | h1
        · subst h1
          exact Or.inl (vo.grow _ (mem_insertS.mpr (Or.inr rfl)))
        · exact vo.cover c h1
      · intro c hc x hx
        have hcm : c ≠ m := by
          intro hcm
          subst hcm
          exact hc (vo.grow _ (mem_insertS.mpr (Or.inr rfl)))
        have hmid : x ∈ clearRemoved m (addRemoved n m removed) c := by
          unfold clearRemoved addRemoved
          rw [if_neg hcm, if_neg hcm]
          exact hx
        exact vo.mono c hc x hmid
      · intro c hc
        have hcm : c ≠ m := by
          intro hcm
          subst hcm
          exact hc (vo.grow _ (mem_insertS.mpr (Or.inr rfl)))
        rcases vo.resid c hc with h1 | h1
        · left
          rw [h1]
          unfold clearRemoved addRemoved
          rw [if_neg hcm, if_neg hcm]
        · exact Or.inr h1
    · have hsat' := eq_false_of_ne_true hsat
      have vo := visitDependents_spec g Y n ms (addRemoved n m removed) S hn hno
        (fun m' hm' => hms m' (by simp [hm'])) hA hC hF1
      have hres1 : (visitDependents g n (m :: ms) removed S).1 =
          (visitDependents g n ms (addRemoved n m removed) S).1 := by
        simp [visitDependents, hsat']
      have hres2 : (visitDependents g n (m :: ms) removed S).2 =
          (visitDependents g n ms (addRemoved n m removed) S).2 := by
        simp [visitDependents, hsat']
      rw [hres1, hres2]
      refine { nodup := vo.nodup, depsIn := vo.depsIn, remIn := vo.remIn,
               grow := vo.grow, slice := ?_, cover := ?_, mono := ?_, resid := ?_ }
      · intro c hc
        rcases vo.slice c hc with h1 | h1
        · exact Or.inl h1
        · exact Or.inr (by simp [h1])
      · intro c hc
        rcases List.mem_cons.mp hc with h1 | h1
        · by_cases hcS2 : c ∈ (visitDependents g n ms (addRemoved n m removed) S).2
          · exact Or.inl hcS2
          · right
            apply vo.mono c hcS2
            rw [h1]
            unfold addRemoved
            rw [if_pos rfl]
            exact mem_insertS.mpr (Or.inr rfl)
        · exact vo.cover c h1
      · intro c hc x hx
        apply vo.mono c hc
        unfold addRemoved
        by_cases hcm : c = m
        · rw [if_pos hcm]
          subst hcm
          exact mem_insertS.mpr (Or.inl hx)
        · rw [if_neg hcm]
          exact hx
      · intro c hc
        rcases vo.resid c hc with h1 | h1
        · by_cases hcm : c = m
          · subst hcm
            have hex : ∃ d ∈ g.dependencies c, d ∉ addRemoved n c removed c := by
              by_contra hcon
              push_neg at hcon
              exact hsat (depsSatisfied_iff.mpr hcon)
            rcases hex with ⟨d, hd, hdne⟩
            right
            refine ⟨d, hd, ?_⟩
            rw [h1]
            exact hdne
          · left
            rw [h1]
            unfold addRemoved
            rw [if_neg hcm]
        · exact Or.inr h1

theorem processNode_spec (g : Graph) (Y : List CallId) (n : CallId) (removed : Edges)
    (S : List CallId)
    (hn : n ∈ Y)
    (hno : ∀ c ∈ Y, n ∉ g.dependencies c)
    (hms : ∀ m ∈ dependentsListOf g n, n ∈ g.dependencies m)
    (hA : (Y ++ S).Nodup)
    (hC : ∀ c ∈ S, ∀ d ∈ g.dependencies c, d ∈ Y)
    (hF : ∀ c x, x ∈ removed c → x ∈ Y) :
    VisitOut g Y n (dependentsListOf g n) removed S (processNode g n removed S).1
      (processNode g n removed S).2 := by
  cases hdep : g.dependents n with
  | none =>
    have hres1 : (processNode g n removed S).1 = removed := by simp [processNode, hdep]
    have hres2 : (processNode g n removed S).2 = S := by simp [processNode, hdep]
    have hms0 : dependentsListOf g n = [] := by simp [dependentsListOf, hdep]
    rw [hres1, hres2, hms0]
    exact { nodup := hA, depsIn := hC, remIn := hF,
            grow := fun _ hc => hc, slice := fun _ hc => Or.inl hc,
            cover := fun _ hc => absurd hc (by simp),
            mono := fun _ _ _ hx => hx, resid := fun _ _ => Or.inl rfl }
  | some ms =>
    have hres1 : (processNode g n removed S).1 = (visitDependents g n ms removed S).1 := by
      simp [processNode, hdep]
    have hres2 : (processNode g n removed S).2 = (visitDependents g n ms removed S).2 := by
      simp [processNode, hdep]
    have hmsl : dependentsListOf g n = ms := by simp [dependentsListOf, hdep]
    rw [hres1, hres2, hmsl]
    exact visitDependents_spec g Y n ms removed S hn hno (hmsl ▸ hms) hA hC hF

theorem kahnRun_nodup (g : Graph) (pick : Nat → Nat) (U : List CallId)
    (hRev : ∀ n ∈ U, ∀ m ∈ dependentsListOf g n, m ∈ U ∧ n ∈ g.dependencies m) :
    ∀ (fuel : Nat), ∀ (t : Nat) (removed : Edges) (S Y ys : List CallId),
      (Y ++ S).Nodup →
      (∀ c ∈ S, c ∈ U) →
      (∀ c ∈ Y, ∀ d ∈ g.dependencies c, d ∈ Y) →
      (∀ c ∈ S, ∀ d ∈ g.dependencies c, d ∈ Y) →
      (∀ c x, x ∈ removed c → x ∈ Y) →
      kahnRun g pick fuel t removed S = some ys →
      (Y ++ ys).Nodup := by
  intro fuel
  induction fuel with
  | zero =>
    intro t removed S Y ys hA hBs hBb hC hF hrun
    cases S with
    | nil =>
      rw [kahnRun_nil] at hrun
      injection hrun with h
      subst h
      simpa using hA
    | cons x xs => exact absurd hrun (by simp [kahnRun])
  | succ fuel ih =>
    intro t removed S Y ys hA hBs hBb hC hF hrun
    cases S with
    | nil =>
      rw [kahnRun_nil] at hrun
      injection hrun with h
      subst h
      simpa using hA
    | cons x xs =>
      rw [kahnRun_cons] at hrun
      cases hrec : kahnRun g pick fuel (t + 1)
          (processNode g (stepPick pick t (x :: xs)).1 removed
            (stepPick pick t (x :: xs)).2).1
          (processNode g (stepPick pick t (x :: xs)).1 removed
            (stepPick pick t (x :: xs)).2).2 with
      | none =>
        rw [hrec] at hrun
        exact absurd hrun (by simp)
      | some ys' =>
        rw [hrec] at hrun
        have hys : ys = (stepPick pick t (x :: xs)).1 :: ys' := by
          injection hrun with h
          exact h.symm
        subst hys
        set n := (stepPick pick t (x :: xs)).1 with hndef
        set S1 := (stepPick pick t (x :: xs)).2 with hS1def
        have hperm : (x :: xs).Perm (n :: S1) := stepPick_perm pick t (by simp)
        have hnS : n ∈ x :: xs := hperm.mem_iff.mpr (List.mem_cons_self _ _)
        have hS1sub : ∀ c ∈ S1, c ∈ x :: xs := fun c hc =>
          hperm.mem_iff.mpr (List.mem_cons_of_mem _ hc)
        have hApair : (Y ++ ([n] ++ S1)).Nodup := by
          have hp : (Y ++ x :: xs).Perm (Y ++ ([n] ++ S1)) :=
            List.Perm.append_left Y (by simpa using hperm)
          exact hp.nodup_iff.mp hA
        have hA' : ((Y ++ [n]) ++ S1).Nodup := by
          rw [List.append_assoc]
          exact hApair
        have hnY : n ∉ Y := by
          intro hnYmem
          have hdisj := List.disjoint_of_nodup_append hApair
          exact hdisj hnYmem (by simp)
        have hn' : n ∈ Y ++ [n] := by simp
        have hdepsn : ∀ d ∈ g.dependencies n, d ∈ Y := hC n hnS
        have hno' : ∀ c ∈ Y ++ [n], n ∉ g.dependencies c := by
          intro c hc hnd
          rcases List.mem_append.mp hc with h1 | h1
          · exact hnY (hBb c h1 n hnd)
          · have hcn : c = n := by simpa using h1
            subst hcn
            exact hnY (hdepsn n hnd)
        have hnU : n ∈ U := hBs n hnS
        have hms' : ∀ m ∈ dependentsListOf g n, n ∈ g.dependencies m :=
          fun m hm => (hRev n hnU m hm).2
        have hC' : ∀ c ∈ S1, ∀ d ∈ g.dependencies c, d ∈ Y ++ [n] :=
          fun c hc d hd => List.mem_append_left _ (hC c (hS1sub c hc) d hd)
        have hF' : ∀ c x', x' ∈ removed c → x' ∈ Y ++ [n] :=
          fun c x' hx => List.mem_append_left _ (hF c x' hx)
        have vo := processNode_spec g (Y ++ [n]) n removed S1 hn' hno' hms' hA' hC' hF'
        have hBs2 : ∀ c ∈ (processNode g n removed S1).2, c ∈ U := by
          intro c hc
          rcases vo.slice c hc with h1 | h1
          · exact hBs c (hS1sub c h1)
          · exact (hRev n hnU c h1).1
        have hBb2 : ∀ c ∈ Y ++ [n], ∀ d ∈ g.dependencies c, d ∈ Y ++ [n] := by
          intro c hc d hd
          rcases List.mem_append.mp hc with h1 | h1
          · exact List.mem_append_left _ (hBb c h1 d hd)
          · have hcn : c = n := by simpa using h1
            subst hcn
            exact List.mem_append_left _ (hdepsn d hd)
        have hres := ih (t + 1) _ _ (Y ++ [n]) ys' vo.nodup hBs2 hBb2 vo.depsIn
          vo.remIn hrec
        rw [List.append_assoc] at hres
        simpa using hres

/-- C10: `generate_execution_order` yields each call id at most once, even
when the initial leaf-id list contains duplicate ids or a dependents list
mentions the same dependent more than once — the frontier is a set, so
repeated insertions collapse, and a popped id is never re-inserted.  The
graph's registries are membership-consistent (`hRev`): a registered
dependent of `n` is a registered call that lists `n` among its
dependencies (duplicate mentions allowed). -/
theorem generate_execution_order_at_most_once (g : Graph) (pick : Nat → Nat)
    (fuel : Nat) (U leaf_call_ids ys : List CallId)
    (hLU : ∀ l ∈ leaf_call_ids, l ∈ U)
    (hleaf : ∀ l ∈ leaf_call_ids, g.dependencies l = [])
    (hRev : ∀ n ∈ U, ∀ m ∈ dependentsListOf g n, m ∈ U ∧ n ∈ g.dependencies m)
    (hrun : generate_execution_order g pick fuel leaf_call_ids = some ys) :
    ys.Nodup := by
  have hA : (([] : List CallId) ++ leaf_call_ids.dedup).Nodup := by
    simp [List.nodup_dedup]
  have hBs : ∀ c ∈ leaf_call_ids.dedup, c ∈ U := fun c hc => hLU c (List.mem_dedup.mp hc)
  have hBb : ∀ c ∈ ([] : List CallId), ∀ d ∈ g.dependencies c, d ∈ ([] : List CallId) := by
    simp
  have hC : ∀ c ∈ leaf_call_ids.dedup, ∀ d ∈ g.dependencies c, d ∈ ([] : List CallId) := by
    intro c hc d hd
    rw [hleaf c (List.mem_dedup.mp hc)] at hd
    exact absurd hd (by simp)
  have hF : ∀ (c x : CallId), x ∈ (fun _ => ([] : List CallId)) c →
      x ∈ ([] : List CallId) :=
    fun _ _ hx => hx
  have hmain := kahnRun_nodup g pick U hRev fuel 0 _ _ [] ys hA hBs hBb hC hF hrun
  simpa using hmain

/-- Witness for C10: duplicate leaf ids and a duplicated dependents
mention still yield a duplicate-free order. -/
theorem generate_execution_order_at_most_once_witness :
    ([1, 2, 3] : List CallId).Nodup :=
  generate_execution_order_at_most_once gDup (fun _ => 0) 6 [1, 2, 3] [1, 1, 2] [1, 2, 3]
    (by decide) (by decide) (by decide) (by decide)

theorem allVisited_of_final (g : Graph) (U : List CallId) (rank : CallId → Nat)
    (Y : List CallId) (removed : Edges)
    (hdepsU : ∀ c ∈ U, ∀ d ∈ g.dependencies c, d ∈ U)
    (hRank : ∀ c ∈ U, ∀ d ∈ g.dependencies c, rank d < rank c)
    (hD : ∀ c ∈ U, c ∉ Y → ∀ d ∈ g.dependencies c, d ∈ Y → d ∈ removed c)
    (hD' : ∀ c ∈ U, c ∉ Y → ∃ d ∈ g.dependencies c, d ∉ removed c) :
    ∀ c ∈ U, c ∈ Y := by
  have hall : ∀ k, ∀ c ∈ U, rank c ≤ k → c ∈ Y := by
    intro k
    induction k with
    | zero =>
      intro c hcU hrk
      by_contra hcY
      rcases hD' c hcU hcY with ⟨d, hd, _⟩
      have := hRank c hcU d hd
      omega
    | succ k ihk =>
      intro c hcU hrk
      by_contra hcY
      rcases hD' c hcU hcY with ⟨d, hd, hdrem⟩
      have hdY : d ∉ Y := fun hdy => hdrem (hD c hcU hcY d hd hdy)
      have hdU : d ∈ U := hdepsU c hcU d hd
      have hlt := hRank c hcU d hd
      exact hdY (ihk d hdU (by omega))
  exact fun c hc => hall (rank c) c hc le_rfl

theorem kahnRun_complete (g : Graph) (pick : Nat → Nat) (U : List CallId)
    (rank : CallId → Nat)
    (hdepsU : ∀ c ∈ U, ∀ d ∈ g.dependencies c, d ∈ U)
    (hFwd : ∀ c ∈ U, ∀ d ∈ g.dependencies c, c ∈ dependentsListOf g d)
    (hRev : ∀ n ∈ U, ∀ m ∈ dependentsListOf g n, m ∈ U ∧ n ∈ g.dependencies m)
    (hRank : ∀ c ∈ U, ∀ d ∈ g.dependencies c, rank d < rank c) :
    ∀ (fuel : Nat), ∀ (t : Nat) (removed : Edges) (S Y : List CallId),
      (Y ++ S).Nodup →
      (∀ c ∈ Y, c ∈ U) →
      (∀ c ∈ S, c ∈ U) →
      (∀ c ∈ Y, ∀ d ∈ g.dependencies c, d ∈ Y) →
      (∀ c ∈ S, ∀ d ∈ g.dependencies c, d ∈ Y) →
      (∀ c x, x ∈ removed c → x ∈ Y) →
      (∀ c ∈ U, c ∉ Y → c ∉ S → ∀ d ∈ g.dependencies c, d ∈ Y → d ∈ removed c) →
      (∀ c ∈ U, c ∉ Y → c ∉ S → ∃ d ∈ g.dependencies c, d ∉ removed c) →
      U.length < fuel + Y.length →
      ∃ ys, kahnRun g pick fuel t removed S = some ys ∧ (Y ++ ys).Nodup ∧
        ∀ c, c ∈ Y ++ ys ↔ c ∈ U := by
  intro fuel
  induction fuel with
  | zero =>
    intro t removed S Y hA hBY hBs hBb hC hF hD hD' hfuel
    cases S with
    | nil =>
      refine ⟨[], kahnRun_nil g pick 0 t removed, by simpa using hA, ?_⟩
      intro c
      constructor
      · intro hc
        exact hBY c (by simpa using hc)
      · intro hc
        have hvis := allVisited_of_final g U rank Y removed hdepsU hRank
          (fun c' hc' hY' d hd hdy => hD c' hc' hY' (by simp) d hd hdy)
          (fun c' hc' hY' => hD' c' hc' hY' (by simp))
        simpa using hvis c hc
    | cons x xs =>
      exfalso
      have hsub : (Y ++ x :: xs) ⊆ U := by
        intro a ha
        rcases List.mem_append.mp ha with h1 | h1
        · exact hBY a h1
        · exact hBs a h1
      have hle := (List.Nodup.subperm hA hsub).length_le
      simp [List.length_append] at hle
      omega
  | succ fuel ih =>
    intro t removed S Y hA hBY hBs hBb hC hF hD hD' hfuel
    cases S with
    | nil =>
      refine ⟨[], kahnRun_nil g pick (fuel + 1) t removed, by simpa using hA, ?_⟩
      intro c
      constructor
      · intro hc
        exact hBY c (by simpa using hc)
      · intro hc
        have hvis := allVisited_of_final g U rank Y removed hdepsU hRank
          (fun c' hc' hY' d hd hdy => hD c' hc' hY' (by simp) d hd hdy)
          (fun c' hc' hY' => hD' c' hc' hY' (by simp))
        simpa using hvis c hc
    | cons x xs =>
      set n := (stepPick pick t (x :: xs)).1 with hndef
      set S1 := (stepPick pick t (x :: xs)).2 with hS1def
      have hperm : (x :: xs).Perm (n :: S1) := stepPick_perm pick t (by simp)
      have hnS : n ∈ x :: xs := hperm.mem_iff.mpr (List.mem_cons_self _ _)
      have hS1sub : ∀ c ∈ S1, c ∈ x :: xs := fun c hc =>
        hperm.mem_iff.mpr (List.mem_cons_of_mem _ hc)
      have hApair : (Y ++ ([n] ++ S1)).Nodup := by
        have hp : (Y ++ x :: xs).Perm (Y ++ ([n] ++ S1)) :=
          List.Perm.append_left Y (by simpa using hperm)
        exact hp.nodup_iff.mp hA
      have hA' : ((Y ++ [n]) ++ S1).Nodup := by
        rw [List.append_assoc]
        exact hApair
      have hnY : n ∉ Y := by
        intro hnYmem
        have hdisj := List.disjoint_of_nodup_append hApair
        exact hdisj hnYmem (by simp)
      have hn' : n ∈ Y ++ [n] := by simp
      have hdepsn : ∀ d ∈ g.dependencies n, d ∈ Y := hC n hnS
      have hno' : ∀ c ∈ Y ++ [n], n ∉ g.dependencies c := by
        intro c hc hnd
        rcases List.mem_append.mp hc with h1 | h1
        · exact hnY (hBb c h1 n hnd)
        · have hcn : c = n := by simpa using h1
          subst hcn
          exact hnY (hdepsn n hnd)
      have hnU : n ∈ U := hBs n hnS
      have hms' : ∀ m ∈ dependentsListOf g n, n ∈ g.dependencies m :=
        fun m hm => (hRev n hnU m hm).2
      have hC' : ∀ c ∈ S1, ∀ d ∈ g.dependencies c, d ∈ Y ++ [n] :=
        fun c hc d hd => List.mem_append_left _ (hC c (hS1sub c hc) d hd)
      have hF' : ∀ c x', x' ∈ removed c → x' ∈ Y ++ [n] :=
        fun c x' hx => List.mem_append_left _ (hF c x' hx)
      have vo := processNode_spec g (Y ++ [n]) n removed S1 hn' hno' hms' hA' hC' hF'
      have hBY' : ∀ c ∈ Y ++ [n], c ∈ U := by
        intro c hc
        rcases List.mem_append.mp hc with h1 | h1
        · exact hBY c h1
        · have hcn : c = n := by simpa using h1
          subst hcn
          exact hnU
      have hBs2 : ∀ c ∈ (processNode g n removed S1).2, c ∈ U := by
        intro c hc
        rcases vo.slice c hc with h1 | h1
        · exact hBs c (hS1sub c h1)
        · exact (hRev n hnU c h1).1
      have hBb2 : ∀ c ∈ Y ++ [n], ∀ d ∈ g.dependencies c, d ∈ Y ++ [n] := by
        intro c hc d hd
        rcases List.mem_append.mp hc with h1 | h1
        · exact List.mem_append_left _ (hBb c h1 d hd)
        · have hcn : c = n := by simpa using h1
          subst hcn
          exact List.mem_append_left _ (hdepsn d hd)
      have hD2 : ∀ c ∈ U, c ∉ Y ++ [n] → c ∉ (processNode g n removed S1).2 →
          ∀ d ∈ g.dependencies c, d ∈ Y ++ [n] → d ∈ (processNode g n removed S1).1 c := by
        intro c hcU hcY' hcS2 d hd hdY'
        have hcY : c ∉ Y := fun h => hcY' (List.mem_append_left _ h)
        have hcn : c ≠ n := fun h => hcY' (by simp [h])
        have hcS1 : c ∉ S1 := fun h => hcS2 (vo.grow c h)
        have hcS : c ∉ x :: xs := by
          intro h
          rcases List.mem_cons.mp (hperm.mem_iff.mp h) with h1 | h1
          · exact hcn h1
          · exact hcS1 h1
        rcases List.mem_append.mp hdY' with h1 | h1
        · exact vo.mono c hcS2 d (hD c hcU hcY hcS d hd h1)
        · have hdn : d = n := by simpa using h1
          subst hdn
          have hcdep : c ∈ dependentsListOf g n := hFwd c hcU n hd
          rcases vo.cover c hcdep with h2 | h2
          · exact absurd h2 hcS2
          · exact h2
      have hD2' : ∀ c ∈ U, c ∉ Y ++ [n] → c ∉ (processNode g n removed S1).2 →
          ∃ d ∈ g.dependencies c, d ∉ (processNode g n removed S1).1 c := by
        intro c hcU hcY' hcS2
        have hcY : c ∉ Y := fun h => hcY' (List.mem_append_left _ h)
        have hcn : c ≠ n := fun h => hcY' (by simp [h])
        have hcS1 : c ∉ S1 := fun h => hcS2 (vo.grow c h)
        have hcS : c ∉ x :: xs := by
          intro h
          rcases List.mem_cons.mp (hperm.mem_iff.mp h) with h1 | h1
          · exact hcn h1
          · exact hcS1 h1
        rcases vo.resid c hcS2 with h1 | h1
        · rcases hD' c hcU hcY hcS with ⟨d, hd, hdrem⟩
          refine ⟨d, hd, ?_⟩
          rw [h1]
          exact hdrem
        · exact h1
      have hfuel' : U.length < fuel + (Y ++ [n]).length := by
        simp only [List.length_append, List.length_cons, List.length_nil] at hfuel ⊢
        omega
      rcases ih (t + 1) _ _ (Y ++ [n]) vo.nodup hBY' hBs2 hBb2 vo.depsIn vo.remIn
          hD2 hD2' hfuel' with ⟨ys', hrun', hnd', hiff'⟩
      refine ⟨n :: ys', ?_, ?_, ?_⟩
      · rw [kahnRun_cons, ← hndef, ← hS1def, hrun']
      · rw [List.append_assoc] at hnd'
        simpa using hnd'
      · intro c
        have hc := hiff' c
        rw [List.append_assoc] at hc
        simpa using hc

/-- C2: for a finite acyclic dependency graph (witnessed by a rank
function decreasing along dependency edges) whose registries are
mutually consistent and whose initial frontier is exactly its leaf call
ids, `generate_execution_order` terminates — fuel `|U| + 1` returns
`some` — yielding every call id of the graph exactly once (the output is
a permutation of the duplicate-free universe `U`), under every frontier
pop order. -/
theorem generate_execution_order_complete (g : Graph) (pick : Nat → Nat)
    (U leaf_call_ids : List CallId) (rank : CallId → Nat)
    (hU : U.Nodup)
    (hLU : ∀ l ∈ leaf_call_ids, l ∈ U)
    (hleaf : ∀ l ∈ leaf_call_ids, g.dependencies l = [])
    (hAllLeaves : ∀ c ∈ U, g.dependencies c = [] → c ∈ leaf_call_ids)
    (hdepsU : ∀ c ∈ U, ∀ d ∈ g.dependencies c, d ∈ U)
    (hFwd : ∀ c ∈ U, ∀ d ∈ g.dependencies c, c ∈ dependentsListOf g d)
    (hRev : ∀ n ∈ U, ∀ m ∈ dependentsListOf g n, m ∈ U ∧ n ∈ g.dependencies m)
    (hRank : ∀ c ∈ U, ∀ d ∈ g.dependencies c, rank d < rank c) :
    ∃ ys, generate_execution_order g pick (U.length + 1) leaf_call_ids = some ys ∧
      ys.Perm U := by
  have hD0 : ∀ c ∈ U, c ∉ ([] : List CallId) → c ∉ leaf_call_ids.dedup →
      ∀ d ∈ g.dependencies c, d ∈ ([] : List CallId) →
        d ∈ (fun _ => ([] : List CallId)) c := by
    intro c _ _ _ d _ hdY
    exact absurd hdY (by simp)
  have hD0' : ∀ c ∈ U, c ∉ ([] : List CallId) → c ∉ leaf_call_ids.dedup →
      ∃ d ∈ g.dependencies c, d ∉ (fun _ => ([] : List CallId)) c := by
    intro c hcU _ hcL
    cases hdc : g.dependencies c with
    | nil => exact absurd (List.mem_dedup.mpr (hAllLeaves c hcU hdc)) hcL
    | cons d ds =>
      refine ⟨d, ?_, ?_⟩
      · simp
      · simp
  rcases kahnRun_complete g pick U rank hdepsU hFwd hRev hRank (U.length + 1) 0
      (fun _ => []) leaf_call_ids.dedup []
      (by simp [List.nodup_dedup])
      (by simp)
      (fun c hc => hLU c (List.mem_dedup.mp hc))
      (by simp)
      (by
        intro c hc d hd
        rw [hleaf c (List.mem_dedup.mp hc)] at hd
        exact absurd hd (by simp))
      (by
        intro c x hx
        exact absurd hx (by simp))
      hD0
      hD0'
      (by simp)
    with ⟨ys, hrun, hnd, hiff⟩
  refine ⟨ys, hrun, ?_⟩
  have hnd' : ys.Nodup := by simpa using hnd
  refine (List.perm_ext_iff_of_nodup hnd' hU).mpr ?_
  intro a
  have ha := hiff a
  simpa using ha

/-- Witness for C2 at a concrete acyclic graph. -/
theorem generate_execution_order_complete_witness :
    ∃ ys, generate_execution_order gDup (fun _ => 0) 4 [1, 2] = some ys ∧
      ys.Perm [1, 2, 3] :=
  generate_execution_order_complete gDup (fun _ => 0) [1, 2, 3] [1, 2] (fun c => c)
    (by decide) (by decide) (by decide) (by decide) (by decide) (by decide) (by decide)
    (by decide)
